import Mathlib

/-!
Verification development for the knowledge_manager repository.

The repository snapshot contains the documentation (`docs/ARCHITECTURE.md`,
`docs/API_REFERENCE.md`, `docs/MCP_INTEGRATION.md`), the Next.js dashboard
(`next/src/...`) and example material; the Python backend modules
(`ingestion/chunker.py`, `vector_store/vector_index.py`, `api/app.py`,
`api/validation.py`) are not part of the snapshot.  Components that live in
those missing modules are therefore modelled from the specification, and each
such definition carries a doc comment starting with `Modelled from the spec:`.
Definitions taken from files that are present (the dashboard pages and the API
client) are embedded directly from that source.
-/

namespace KnowledgeManager

/-! ## Chunker

Modelled from the spec: `ingestion/chunker.py` is absent from the snapshot.
The spec (§4.1) and `docs/ARCHITECTURE.md` (lines 172-175) describe
token-based chunking with whitespace splitting: the text is split into
whitespace-delimited words, and consecutive words are grouped into segments of
at most `max_tokens` words each, in document order.
-/

/-- Split a character list into maximal whitespace-free words.  `cur` holds the
characters of the word currently being read, in reverse order. -/
def wordsAux : List Char → List Char → List (List Char)
  | cur, [] => if cur.isEmpty then [] else [cur.reverse]
  | cur, c :: cs =>
    if c.isWhitespace then
      if cur.isEmpty then wordsAux [] cs
      else cur.reverse :: wordsAux [] cs
    else wordsAux (c :: cur) cs

/-- The whitespace-delimited token stream of a string. -/
def tokens (s : String) : List String :=
  (wordsAux [] s.data).map fun w => String.mk w

/-- Join a list of words back into one character list, separating consecutive
words by a single space. -/
def joinWords : List (List Char) → List Char
  | [] => []
  | [w] => w
  | w :: ws => w ++ (' ' :: joinWords ws)

/-- Group a word list into consecutive runs of at most `m` words (at least one
word per run, so the grouping also terminates when `m = 0`). -/
def chunkTokens (m : Nat) : List (List Char) → List (List (List Char))
  | [] => []
  | w :: ws => (w :: ws.take (m - 1)) :: chunkTokens m (ws.drop (m - 1))
termination_by ws => ws.length
decreasing_by
  simp only [List.length_cons, List.length_drop]
  omega

/-- Modelled from the spec: `chunk(text, max_tokens)` splits `text` on
whitespace into words and groups them, in document order, into segments of at
most `max_tokens` words, each segment rendered with single spaces between its
words. -/
def chunk (text : String) (max_tokens : Nat) : List String :=
  (chunkTokens max_tokens (wordsAux [] text.data)).map fun g => String.mk (joinWords g)

theorem wordsAux_ws_only (l : List Char) (hl : ∀ c ∈ l, c.isWhitespace) :
    wordsAux [] l = [] := by
  induction l with
  | nil => simp [wordsAux]
  | cons c cs ih =>
      have hc : c.isWhitespace := hl c (List.mem_cons_self c cs)
      simp only [wordsAux, hc, if_pos, List.isEmpty_nil, if_true]
      exact ih fun x hx => hl x (List.mem_cons_of_mem c hx)

theorem wordsAux_wf (l : List Char) (cur : List Char)
    (hcur : ∀ c ∈ cur, ¬ c.isWhitespace) :
    ∀ w ∈ wordsAux cur l, w ≠ [] ∧ ∀ c ∈ w, ¬ c.isWhitespace := by
  induction l generalizing cur with
  | nil =>
      intro w hw
      simp only [wordsAux] at hw
      by_cases hc : cur.isEmpty
      · simp [hc] at hw
      · simp only [hc] at hw
        simp only [Bool.false_eq_true, if_false, List.mem_singleton] at hw
        subst hw
        refine ⟨?_, ?_⟩
        · intro h
          rw [List.reverse_eq_nil_iff] at h
          subst h
          simp at hc
        · intro c hc2
          exact hcur c (List.mem_reverse.mp hc2)
  | cons c cs ih =>
      intro w hw
      simp only [wordsAux] at hw
      by_cases hws : c.isWhitespace
      · simp only [hws, if_true] at hw
        by_cases hc : cur.isEmpty
        · simp only [hc, if_true] at hw
          exact ih [] (by simp) w hw
        · simp only [hc] at hw
          simp only [Bool.false_eq_true, if_false, List.mem_cons] at hw
          rcases hw with hw | hw
          · subst hw
            refine ⟨?_, ?_⟩
            · intro h
              rw [List.reverse_eq_nil_iff] at h
              subst h
              simp at hc
            · intro x hx
              exact hcur x (List.mem_reverse.mp hx)
          · exact ih [] (by simp) w hw
      · simp only [hws] at hw
        simp only [Bool.false_eq_true, if_false] at hw
        refine ih (c :: cur) ?_ w hw
        intro x hx
        rcases List.mem_cons.mp hx with h | h
        · subst h; exact fun h2 => hws h2
        · exact hcur x h

theorem wordsAux_prepend_word (w l : List Char) (cur : List Char)
    (hw : ∀ c ∈ w, ¬ c.isWhitespace) :
    wordsAux cur (w ++ l) = wordsAux (w.reverse ++ cur) l := by
  induction w generalizing cur with
  | nil => simp
  | cons c cs ih =>
      have hc : ¬ c.isWhitespace := hw c (List.mem_cons_self c cs)
      simp only [List.cons_append, wordsAux, hc, Bool.false_eq_true, if_false,
        List.append_eq]
      rw [ih (c :: cur) (fun x hx => hw x (List.mem_cons_of_mem c hx))]
      simp

theorem wordsAux_joinWords (g : List (List Char))
    (hg : ∀ w ∈ g, w ≠ [] ∧ ∀ c ∈ w, ¬ c.isWhitespace) :
    wordsAux [] (joinWords g) = g := by
  induction g with
  | nil => simp [joinWords, wordsAux]
  | cons w ws ih =>
      rcases hg w (List.mem_cons_self w ws) with ⟨hw0, hwc⟩
      cases ws with
      | nil =>
          simp only [joinWords]
          rw [show (w : List Char) = w ++ [] by simp, wordsAux_prepend_word w [] [] hwc]
          simp only [wordsAux, List.append_nil]
          have : ¬ (w.reverse).isEmpty := by
            simp [List.isEmpty_iff, hw0]
          simp [this]
      | cons w2 ws2 =>
          simp only [joinWords]
          rw [wordsAux_prepend_word w (' ' :: joinWords (w2 :: ws2)) [] hwc]
          simp only [List.append_nil, wordsAux]
          have hsp : (' ' : Char).isWhitespace := by decide
          have : ¬ (w.reverse).isEmpty := by
            simp [List.isEmpty_iff, hw0]
          simp only [hsp, if_true, this, Bool.false_eq_true, if_false,
            List.reverse_reverse]
          rw [ih (fun x hx => hg x (List.mem_cons_of_mem w hx))]

theorem chunkTokens_join (m : Nat) (ws : List (List Char)) :
    (chunkTokens m ws).flatten = ws := by
  induction ws using chunkTokens.induct m with
  | case1 => simp [chunkTokens]
  | case2 w ws ih =>
      simp only [chunkTokens, List.flatten_cons, ih]
      simp [List.take_append_drop]

theorem chunkTokens_groups (m : Nat) (hm : 0 < m) (ws : List (List Char)) :
    ∀ g ∈ chunkTokens m ws, g ≠ [] ∧ g.length ≤ m := by
  induction ws using chunkTokens.induct m with
  | case1 => simp [chunkTokens]
  | case2 w ws ih =>
      intro g hg
      simp only [chunkTokens, List.mem_cons] at hg
      rcases hg with hg | hg
      · subst hg
        refine ⟨by simp, ?_⟩
        simp only [List.length_cons, List.length_take]
        omega
      · exact ih g hg

theorem chunkTokens_mem_wf (m : Nat) (ws : List (List Char))
    (hws : ∀ w ∈ ws, w ≠ [] ∧ ∀ c ∈ w, ¬ c.isWhitespace) :
    ∀ g ∈ chunkTokens m ws, ∀ w ∈ g, w ≠ [] ∧ ∀ c ∈ w, ¬ c.isWhitespace := by
  intro g hg w hw
  refine hws w ?_
  rw [← chunkTokens_join m ws]
  exact List.mem_flatten.mpr ⟨g, hg, hw⟩

theorem joinWords_ne_nil (g : List (List Char)) (hg0 : g ≠ [])
    (hg : ∀ w ∈ g, w ≠ []) : joinWords g ≠ [] := by
  match g with
  | [w] =>
      simpa [joinWords] using hg w (by simp)
  | w :: w2 :: ws =>
      simp [joinWords]

theorem tokens_mk_joinWords (g : List (List Char))
    (hg : ∀ w ∈ g, w ≠ [] ∧ ∀ c ∈ w, ¬ c.isWhitespace) :
    tokens (String.mk (joinWords g)) = g.map fun w => String.mk w := by
  show (wordsAux [] (joinWords g)).map _ = _
  rw [wordsAux_joinWords g hg]

theorem mk_ne_empty (x : List Char) (h : x ≠ []) : String.mk x ≠ "" := by
  intro he
  have hd := congrArg String.data he
  simp at hd
  exact h hd

/-- C5: for every input text and `max_tokens ≥ 1`, `chunk` is deterministic
(identical inputs give identical output); every returned segment is a
non-empty string containing at most `max_tokens` tokens; concatenating the
token streams of the segments, in order, reconstructs the token stream of the
original text with no loss (which also forces original document order); and a
text whose characters are all whitespace yields the empty sequence. -/
theorem C5_chunk_properties (text : String) (m : Nat) (hm : 0 < m) :
    (∀ t1 t2 k1 k2, t1 = t2 → k1 = k2 → chunk t1 k1 = chunk t2 k2)
    ∧ (∀ seg ∈ chunk text m, seg ≠ "" ∧ (tokens seg).length ≤ m)
    ∧ ((chunk text m).map tokens).flatten = tokens text
    ∧ ((∀ c ∈ text.data, c.isWhitespace) → chunk text m = []) := by
  have hW : ∀ w ∈ wordsAux [] text.data, w ≠ [] ∧ ∀ c ∈ w, ¬ c.isWhitespace :=
    wordsAux_wf text.data [] (by simp)
  refine ⟨?_, ?_, ?_, ?_⟩
  · intro t1 t2 k1 k2 h1 h2
    rw [h1, h2]
  · intro seg hseg
    simp only [chunk, List.mem_map] at hseg
    obtain ⟨g, hg, rfl⟩ := hseg
    have hgroups := chunkTokens_groups m hm (wordsAux [] text.data) g hg
    have hgw := chunkTokens_mem_wf m (wordsAux [] text.data) hW g hg
    constructor
    · exact mk_ne_empty _ (joinWords_ne_nil g hgroups.1 fun w hw => (hgw w hw).1)
    · rw [tokens_mk_joinWords g hgw]
      simpa using hgroups.2
  · simp only [chunk, List.map_map]
    have hmap : ∀ g ∈ chunkTokens m (wordsAux [] text.data),
        (tokens ∘ fun g => String.mk (joinWords g)) g = g.map fun w => String.mk w := by
      intro g hg
      exact tokens_mk_joinWords g (chunkTokens_mem_wf m (wordsAux [] text.data) hW g hg)
    rw [List.map_congr_left hmap, ← List.map_flatten, chunkTokens_join]
    rfl
  · intro hws
    simp [chunk, wordsAux_ws_only text.data hws, chunkTokens]

/-- Closed instance of `C5_chunk_properties` at a concrete text and
`max_tokens = 2`. -/
theorem C5_chunk_properties_witness :
    (∀ seg ∈ chunk "alpha beta  gamma" 2, seg ≠ "" ∧ (tokens seg).length ≤ 2)
    ∧ ((chunk "alpha beta  gamma" 2).map tokens).flatten = tokens "alpha beta  gamma"
    ∧ chunk "alpha beta  gamma" 2 = ["alpha beta", "gamma"] := by
  refine ⟨(C5_chunk_properties "alpha beta  gamma" 2 (by decide)).2.1,
    (C5_chunk_properties "alpha beta  gamma" 2 (by decide)).2.2.1, ?_⟩
  simp only [chunk]
  simp +decide [wordsAux, chunkTokens, joinWords]

/-! ## Vector Index

Modelled from the spec: `vector_store/vector_index.py` is absent from the
snapshot.  The spec (§4.3) and `docs/API_REFERENCE.md` (lines 277-288)
describe `query(collection, query_embedding, n_results)` as returning up to
`n_results` nearest chunks ranked by ascending distance, ties broken by
original insertion order.  Embeddings are modelled as rational vectors and
distance as squared Euclidean distance (any metric with `d(x,x) = 0` and a
total order on distances satisfies the spec text).
-/

structure StoredChunk where
  id : String
  embedding : List ℚ
  document : String
deriving DecidableEq

/-- Squared Euclidean distance between two embeddings. -/
def sqDist (x y : List ℚ) : ℚ :=
  (List.zipWith (fun a b => (a - b) * (a - b)) x y).sum

/-- A ranking entry: the chunk, its distance to the query embedding, and its
original insertion index in the collection. -/
abbrev Entry := StoredChunk × ℚ × Nat

/-- Ranking order: ascending distance, ties broken by insertion index. -/
def entryLE (a b : Entry) : Prop :=
  a.2.1 < b.2.1 ∨ (a.2.1 = b.2.1 ∧ a.2.2 ≤ b.2.2)

instance : DecidableRel entryLE := fun a b => by
  unfold entryLE; infer_instance

instance : IsTotal Entry entryLE := by
  constructor
  intro a b
  rcases lt_trichotomy a.2.1 b.2.1 with h | h | h
  · exact Or.inl (Or.inl h)
  · rcases Nat.le_total a.2.2 b.2.2 with h2 | h2
    · exact Or.inl (Or.inr ⟨h, h2⟩)
    · exact Or.inr (Or.inr ⟨h.symm, h2⟩)
  · exact Or.inr (Or.inl h)

instance : IsTrans Entry entryLE := by
  constructor
  intro a b c hab hbc
  rcases hab with h1 | ⟨h1, h1i⟩ <;> rcases hbc with h2 | ⟨h2, h2i⟩
  · exact Or.inl (h1.trans h2)
  · exact Or.inl (h2 ▸ h1)
  · exact Or.inl (h1 ▸ h2)
  · exact Or.inr ⟨h1.trans h2, h1i.trans h2i⟩

/-- Modelled from the spec: `query` on a collection ranks all stored chunks by
ascending distance to the query embedding (ties by insertion order) and
returns the first `n_results` of them. -/
def queryEntries (col : List StoredChunk) (qe : List ℚ) (n : Nat) : List Entry :=
  (List.insertionSort entryLE
    (col.enum.map fun p => (p.2, sqDist p.2.embedding qe, p.1))).take n

theorem sqDist_self (x : List ℚ) : sqDist x x = 0 := by
  induction x with
  | nil => simp [sqDist]
  | cons a l ih =>
      simp only [sqDist, List.zipWith_cons_cons, List.sum_cons, sub_self,
        mul_zero, zero_add]
      exact ih

theorem queryEntries_eq_sort (col : List StoredChunk) (qe : List ℚ) (n : Nat)
    (hn : col.length ≤ n) :
    queryEntries col qe n =
      List.insertionSort entryLE
        (col.enum.map fun p => (p.2, sqDist p.2.embedding qe, p.1)) := by
  unfold queryEntries
  apply List.take_of_length_le
  rw [List.length_insertionSort, List.length_map, List.enum_length]
  exact hn

/-- C9: inserting N chunks into a fresh collection and querying with
`n_results ≥ N` returns exactly those N chunks by id; querying with a chunk's
own embedding yields distance 0 for that chunk; every query returns at most
`n_results` entries, ranked by ascending distance with ties broken by
insertion order. -/
theorem C9_add_query_roundtrip (chunks : List StoredChunk) (qe : List ℚ)
    (n : Nat) (hn : chunks.length ≤ n) :
    List.Perm ((queryEntries chunks qe n).map fun e => e.1.id)
      (chunks.map fun c => c.id)
    ∧ (∀ c ∈ chunks,
        ∃ e ∈ queryEntries chunks c.embedding n, e.1.id = c.id ∧ e.2.1 = 0)
    ∧ (∀ qe2 n2, (queryEntries chunks qe2 n2).length ≤ n2)
    ∧ (∀ qe2 n2, List.Sorted entryLE (queryEntries chunks qe2 n2)) := by
  refine ⟨?_, ?_, ?_, ?_⟩
  · rw [queryEntries_eq_sort chunks qe n hn]
    refine ((List.perm_insertionSort entryLE _).map _).trans ?_
    rw [List.map_map]
    have : ((fun e : Entry => e.1.id) ∘ fun p : Nat × StoredChunk =>
        (p.2, sqDist p.2.embedding qe, p.1)) = (fun c : StoredChunk => c.id) ∘ Prod.snd := rfl
    rw [this, ← List.map_map, List.enum_map_snd]
  · intro c hc
    have hmem : c ∈ chunks.enum.map Prod.snd := by
      rw [List.enum_map_snd]; exact hc
    obtain ⟨p, hp, hpc⟩ := List.mem_map.mp hmem
    refine ⟨(c, 0, p.1), ?_, rfl, rfl⟩
    rw [queryEntries_eq_sort chunks c.embedding n hn]
    rw [List.mem_insertionSort]
    refine List.mem_map.mpr ⟨p, hp, ?_⟩
    rw [hpc, sqDist_self]
  · intro qe2 n2
    unfold queryEntries
    exact List.length_take_le n2 _
  · intro qe2 n2
    unfold queryEntries
    exact (List.sorted_insertionSort entryLE _).sublist (List.take_sublist n2 _)

/-- Closed instance of `C9_add_query_roundtrip`: two concrete chunks,
queried with the first chunk's own embedding and `n_results = 5`. -/
theorem C9_add_query_roundtrip_witness :
    List.Perm ((queryEntries
        [⟨"id1", [0, 1], "doc one"⟩, ⟨"id2", [3, 4], "doc two"⟩]
        [0, 1] 5).map fun e => e.1.id)
      (([⟨"id1", [0, 1], "doc one"⟩, ⟨"id2", [3, 4], "doc two"⟩] :
        List StoredChunk).map fun c => c.id)
    ∧ (∀ c ∈ ([⟨"id1", [0, 1], "doc one"⟩, ⟨"id2", [3, 4], "doc two"⟩] :
        List StoredChunk),
        ∃ e ∈ queryEntries
          [⟨"id1", [0, 1], "doc one"⟩, ⟨"id2", [3, 4], "doc two"⟩]
          c.embedding 5, e.1.id = c.id ∧ e.2.1 = 0) := by
  have h := C9_add_query_roundtrip
    [⟨"id1", [0, 1], "doc one"⟩, ⟨"id2", [3, 4], "doc two"⟩] [0, 1] 5
    (by decide)
  exact ⟨h.1, h.2.1⟩

/-! ## Multi-collection query merge

Modelled from the spec: `query_multiple_indexes` in `api/app.py` is absent
from the snapshot.  `docs/ARCHITECTURE.md` (lines 198-204) documents it as:
embed the query once, query collections in parallel, aggregate results, sort
by distance, return unified results; the spec (§4.5) adds truncation to the
caller-supplied `n_results`.
-/

structure TaggedResult where
  collection : String
  document : String
  distance : ℚ
deriving DecidableEq

/-- Merge order on aggregated results: ascending distance. -/
def distLE (a b : TaggedResult) : Prop := a.distance ≤ b.distance

instance : DecidableRel distLE := fun a b => by
  unfold distLE; infer_instance

instance : IsTotal TaggedResult distLE :=
  ⟨fun a b => le_total a.distance b.distance⟩

instance : IsTrans TaggedResult distLE :=
  ⟨fun _ _ _ hab hbc => le_trans hab hbc⟩

/-- The per-collection results flattened into one tagged list, in collection
submission order. -/
def taggedResults (results : List (String × List (String × ℚ))) :
    List TaggedResult :=
  results.flatMap fun p => p.2.map fun r => ⟨p.1, r.1, r.2⟩

/-- Modelled from the spec: `query_multiple_indexes` aggregates all
per-collection results, sorts them ascending by distance globally, and
truncates to `n_results`. -/
def query_multiple_indexes (results : List (String × List (String × ℚ)))
    (n : Nat) : List TaggedResult :=
  (List.insertionSort distLE (taggedResults results)).take n

/-- C1: the final result sequence of a multi-collection query is globally
sorted ascending by distance; when `n_results` covers all per-collection
results it is a permutation of their union (a true merge, not a naive
concatenation); and on collections A (distances [0.1, 0.5]) and B (distances
[0.2, 0.3]) with `n_results = 4` the order is [0.1(A), 0.2(B), 0.3(B),
0.5(A)]. -/
theorem C1_global_sorted_merge (results : List (String × List (String × ℚ)))
    (n : Nat) :
    List.Sorted distLE (query_multiple_indexes results n)
    ∧ ((taggedResults results).length ≤ n →
        List.Perm (query_multiple_indexes results n) (taggedResults results))
    ∧ query_multiple_indexes
        [("A", [("a1", 1/10), ("a2", 5/10)]), ("B", [("b1", 2/10), ("b2", 3/10)])] 4
      = [⟨"A", "a1", 1/10⟩, ⟨"B", "b1", 2/10⟩, ⟨"B", "b2", 3/10⟩,
         ⟨"A", "a2", 5/10⟩] := by
  refine ⟨?_, ?_, ?_⟩
  · exact (List.sorted_insertionSort distLE _).sublist (List.take_sublist n _)
  · intro h
    unfold query_multiple_indexes
    rw [List.take_of_length_le (by rw [List.length_insertionSort]; exact h)]
    exact List.perm_insertionSort distLE _
  · norm_num [query_multiple_indexes, taggedResults, List.insertionSort,
      List.orderedInsert, distLE]

/-- Closed instance of `C1_global_sorted_merge`: the four-result merged
ordering of the spec example, obtained by applying the theorem at the example
input. -/
theorem C1_global_sorted_merge_witness :
    query_multiple_indexes
        [("A", [("a1", 1/10), ("a2", 5/10)]), ("B", [("b1", 2/10), ("b2", 3/10)])] 4
      = [⟨"A", "a1", 1/10⟩, ⟨"B", "b1", 2/10⟩, ⟨"B", "b2", 3/10⟩,
         ⟨"A", "a2", 5/10⟩] :=
  (C1_global_sorted_merge [] 0).2.2

/-! ## Error taxonomy (spec §7) -/

inductive KMError
  | validationError (code : String)
  | noValidContentError
  | invalidStateError
deriving DecidableEq

/-! ## Corpus permission model -/

/-- Per-principal view of a corpus as the backend serves it to the dashboard.
Embedded from the `Corpus` fields used by the corpus browse page
(`src/unnamed/part_002`): `is_owner`, `user_permission`, `is_public`,
`is_approved`. -/
structure CorpusView where
  is_owner : Bool
  user_permission : Option String
  is_public : Bool
  is_approved : Bool
deriving DecidableEq

/-- JavaScript truthiness of the optional `user_permission` string field
(absent and empty strings are falsy). -/
def permTruthy : Option String → Bool
  | none => false
  | some s => !(s == "")

/-- Embedded from `hasAccess` in `src/unnamed/part_002` (lines 148-149):
`corpus.is_owner || corpus.user_permission ||
(corpus.is_public && corpus.is_approved)`. -/
def hasAccess (c : CorpusView) : Bool :=
  c.is_owner || permTruthy c.user_permission || (c.is_public && c.is_approved)

/-- Backend-side corpus record.  Modelled from the spec: the corpus metadata
store is not in the snapshot; the spec (§3) lists `owner`, a permission map
principal → viewer/owner, `is_public` and `is_approved`. -/
structure Corpus where
  owner : String
  permissions : List (String × String)
  is_public : Bool
  is_approved : Bool
deriving DecidableEq

/-- Modelled from the spec: the per-principal view of a corpus the backend
computes before answering a request. -/
def viewFor (principal : String) (c : Corpus) : CorpusView :=
  { is_owner := principal == c.owner
    user_permission := c.permissions.lookup principal
    is_public := c.is_public
    is_approved := c.is_approved }

/-- Modelled from the spec: `can_query(principal, corpus)`, realised as the
`hasAccess` test on the per-principal view. -/
def can_query (principal : String) (c : Corpus) : Bool :=
  hasAccess (viewFor principal c)

theorem lookup_mem (l : List (String × String)) (k : String) (v : String)
    (h : l.lookup k = some v) : (k, v) ∈ l := by
  induction l with
  | nil => simp [List.lookup] at h
  | cons p ps ih =>
      obtain ⟨a, b⟩ := p
      rw [List.lookup] at h
      by_cases hk : (k == a) = true
      · simp only [hk] at h
        have hb : b = v := Option.some.inj h
        have ha : k = a := by simpa using hk
        subst hb
        subst ha
        exact List.mem_cons_self _ _
      · rw [Bool.not_eq_true] at hk
        simp only [hk] at h
        exact List.mem_cons_of_mem _ (ih h)

/-- C2: `can_query(principal, corpus)` holds iff the principal is the owner,
or holds an explicit (viewer/owner) grant, or the corpus is both public and
approved; consequently a draft corpus is invisible to any non-owner without a
grant, `is_public` alone without approval still denies non-owner query, and a
public approved corpus is queryable by any principal. -/
theorem C2_can_query (principal : String) (c : Corpus)
    (hperm : ∀ p ∈ c.permissions, p.2 = "viewer" ∨ p.2 = "owner") :
    (can_query principal c = true ↔
      (principal = c.owner ∨ (c.permissions.lookup principal).isSome
        ∨ (c.is_public = true ∧ c.is_approved = true)))
    ∧ (c.is_public = false → principal ≠ c.owner →
        c.permissions.lookup principal = none → can_query principal c = false)
    ∧ (c.is_approved = false → principal ≠ c.owner →
        c.permissions.lookup principal = none → can_query principal c = false)
    ∧ (c.is_public = true → c.is_approved = true →
        can_query principal c = true) := by
  have htruthy : permTruthy (c.permissions.lookup principal) =
      (c.permissions.lookup principal).isSome := by
    cases hcase : c.permissions.lookup principal with
    | none => simp [permTruthy]
    | some v =>
        have hv := hperm _ (lookup_mem c.permissions principal v hcase)
        have hv2 : v = "viewer" ∨ v = "owner" := hv
        simp only [permTruthy, Option.isSome_some]
        rcases hv2 with rfl | rfl <;> decide
  refine ⟨?_, ?_, ?_, ?_⟩
  · simp only [can_query, hasAccess, viewFor, htruthy]
    simp only [Bool.or_eq_true, Bool.and_eq_true, beq_iff_eq]
    tauto
  · intro hpub howner hlook
    simp [can_query, hasAccess, viewFor, hlook, permTruthy, hpub, howner]
  · intro happ howner hlook
    simp [can_query, hasAccess, viewFor, hlook, permTruthy, happ, howner]
  · intro hpub happ
    simp [can_query, hasAccess, viewFor, hpub, happ]

/-- Closed instance of `C2_can_query`: corpus owned by "alice" with a viewer
grant for "bob"; a draft corpus denies "carol", a pending-public corpus still
denies "carol", and an approved public corpus admits "carol". -/
theorem C2_can_query_witness :
    can_query "carol" ⟨"alice", [("bob", "viewer")], false, false⟩ = false
    ∧ can_query "carol" ⟨"alice", [("bob", "viewer")], true, false⟩ = false
    ∧ can_query "carol" ⟨"alice", [("bob", "viewer")], true, true⟩ = true := by
  refine ⟨?_, ?_, ?_⟩
  · exact (C2_can_query "carol" ⟨"alice", [("bob", "viewer")], false, false⟩
      (by simp)).2.1 rfl (by decide) (by decide)
  · exact (C2_can_query "carol" ⟨"alice", [("bob", "viewer")], true, false⟩
      (by simp)).2.2.1 rfl (by decide) (by decide)
  · exact (C2_can_query "carol" ⟨"alice", [("bob", "viewer")], true, true⟩
      (by simp)).2.2.2 rfl rfl

/-! ## Corpus state machine

Modelled from the spec: the corpus lifecycle endpoints live in the absent
backend; `docs/API_REFERENCE.md` (lines 591-623) documents the admin approve
and revoke endpoints, the dashboard calls them through `adminApi` in
`next/src/lib/api/client.ts` (lines 172-184), and the spec (§4.6) fixes the
transition rules.
-/

inductive CorpusState
  | draft
  | pending_public
  | approved_public
deriving DecidableEq

/-- Modelled from the spec: corpus creation yields a draft. -/
def createCorpusState : CorpusState := .draft

/-- Modelled from the spec: the owner setting `is_public = true` moves a
draft to pending approval and is a no-op on an already public corpus. -/
def ownerSetPublic : CorpusState → CorpusState
  | .draft => .pending_public
  | s => s

/-- Modelled from the spec: administrator approval, only valid from
`pending_public`. -/
def adminApprove : CorpusState → Except KMError CorpusState
  | .pending_public => .ok .approved_public
  | _ => .error .invalidStateError

/-- Modelled from the spec: administrator revocation, only valid from
`approved_public`. -/
def adminRevoke : CorpusState → Except KMError CorpusState
  | .approved_public => .ok .pending_public
  | _ => .error .invalidStateError

/-- C8: the corpus state machine admits exactly the specified transitions:
create yields draft; owner publish moves draft to pending and is a no-op on
public states; admin approve succeeds exactly from pending; admin revoke
succeeds exactly from approved. -/
theorem C8_state_machine (s : CorpusState) :
    createCorpusState = .draft
    ∧ ownerSetPublic .draft = .pending_public
    ∧ (s ≠ .draft → ownerSetPublic s = s)
    ∧ adminApprove .pending_public = .ok .approved_public
    ∧ (s ≠ .pending_public → adminApprove s = .error .invalidStateError)
    ∧ adminRevoke .approved_public = .ok .pending_public
    ∧ (s ≠ .approved_public → adminRevoke s = .error .invalidStateError) := by
  refine ⟨rfl, rfl, ?_, rfl, ?_, rfl, ?_⟩ <;>
    cases s <;> intro h <;> first | rfl | exact absurd rfl h

/-- Closed instance of `C8_state_machine` at `approved_public`: publish is a
no-op there, approve fails there, and revoke demotes it to pending. -/
theorem C8_state_machine_witness :
    ownerSetPublic .approved_public = .approved_public
    ∧ adminApprove .approved_public = .error .invalidStateError
    ∧ adminRevoke .approved_public = .ok .pending_public :=
  ⟨(C8_state_machine .approved_public).2.2.1 (by decide),
   (C8_state_machine .approved_public).2.2.2.2.1 (by decide),
   (C8_state_machine .approved_public).2.2.2.2.2.1⟩

/-! ## Identifier validation -/

/-- Embedded from `createCorpusSchema` in
`next/src/app/(dashboard)/corpuses/manage/page.tsx` (lines 56-62): the
character class of the regex `/^[a-zA-Z0-9_-]+$/`. -/
def identChar (c : Char) : Bool :=
  c.isAlpha || c.isDigit || c == '_' || c == '-'

/-- Embedded from `createCorpusSchema` (same file): a name is valid when it
is 1 to 64 characters long and matches `/^[a-zA-Z0-9_-]+$/`. -/
def validCorpusName (s : String) : Bool :=
  decide (1 ≤ s.length) && decide (s.length ≤ 64) && s.data.all identChar

/-- Embedded from the create-corpus form flow in the same file: the form uses
`zodResolver(createCorpusSchema)`, so `corpusApi.create` (the storage call) is
reached only when the schema accepts the submitted name. -/
def submitCreateCorpus (name : String) : Option String :=
  if validCorpusName name then some name else none

/-- Modelled from the spec: `api/validation.py` is absent from the snapshot;
collection names are validated against the identifier grammar of spec §3
before any filesystem or storage interaction, and rejected with
`ValidationError` (`validation.invalid_collection_name` in
`docs/MCP_INTEGRATION.md`) otherwise. -/
def validate_collection_name (s : String) : Except KMError String :=
  if validCorpusName s then .ok s
  else .error (.validationError "validation.invalid_collection_name")

/-- C7: a valid name is non-empty, at most 64 characters, drawn only from
letters, digits, underscore and hyphen, and in particular contains no `/` or
`.` (so no path-traversal sequence); the name `"../etc"` is rejected by the
corpus form validation and by the collection-name validation before any
storage call. -/
theorem C7_name_validation (s : String) :
    (validCorpusName s = true →
      1 ≤ s.length ∧ s.length ≤ 64 ∧
        ∀ c ∈ s.data, identChar c = true ∧ c ≠ '/' ∧ c ≠ '.')
    ∧ validCorpusName "../etc" = false
    ∧ submitCreateCorpus "../etc" = none
    ∧ validate_collection_name "../etc" =
        .error (.validationError "validation.invalid_collection_name") := by
  have hbad : validCorpusName "../etc" = false := by decide
  refine ⟨?_, hbad, by simp [submitCreateCorpus, hbad],
    by simp [validate_collection_name, hbad]⟩
  intro hv
  simp only [validCorpusName, Bool.and_eq_true, decide_eq_true_eq,
    List.all_eq_true] at hv
  obtain ⟨⟨h1, h2⟩, h3⟩ := hv
  refine ⟨h1, h2, ?_⟩
  intro c hc
  refine ⟨h3 c hc, ?_, ?_⟩
  · intro hcceq
    subst hcceq
    exact absurd (h3 _ hc) (by decide)
  · intro hcceq
    subst hcceq
    exact absurd (h3 _ hc) (by decide)

/-- Closed instance of `C7_name_validation`: the valid name "my-corpus_1" has
only grammar characters and no traversal characters, and "../etc" is
rejected everywhere. -/
theorem C7_name_validation_witness :
    (1 ≤ "my-corpus_1".length ∧ "my-corpus_1".length ≤ 64 ∧
      ∀ c ∈ "my-corpus_1".data, identChar c = true ∧ c ≠ '/' ∧ c ≠ '.')
    ∧ validCorpusName "../etc" = false
    ∧ submitCreateCorpus "../etc" = none :=
  ⟨(C7_name_validation "my-corpus_1").1 (by decide),
   (C7_name_validation "my-corpus_1").2.1,
   (C7_name_validation "my-corpus_1").2.2.1⟩

/-! ## Query page request construction -/

/-- The request body shape sent by the dashboard query page: the singular
`collection` and plural `collections` fields are both optional.  Embedded
from `queryMutation` in `next/src/app/(dashboard)/query/page.tsx`
(lines 30-43). -/
structure QueryPayload where
  query : String
  collection : Option String
  collections : Option (List String)
deriving DecidableEq

/-- Embedded from `queryMutation` (lines 31-40): start from `{query}`; if
exactly one collection is selected set the singular `collection` field; if
more than one is selected set the plural `collections` field. -/
def buildQueryPayload (query : String) (selected : List String) : QueryPayload :=
  { query := query
    collection := if selected.length = 1 then selected.head? else none
    collections := if 1 < selected.length then some selected else none }

/-- JavaScript `String.prototype.trim`: strip leading and trailing
whitespace. -/
def jsTrim (s : String) : String :=
  String.mk (((s.data.dropWhile Char.isWhitespace).reverse.dropWhile
    Char.isWhitespace).reverse)

/-- Embedded from `handleSubmit` in the query page (lines 61-66): the
mutation — hence the HTTP request — fires only when `query.trim()` is
truthy (a non-empty trimmed string). -/
def handleSubmit (query : String) (selected : List String) :
    Option QueryPayload :=
  if jsTrim query ≠ "" then some (buildQueryPayload query selected) else none

/-- Modelled from the spec: the query endpoint searches only `collection`
when given, else the `collections` list when given, else every accessible
collection (`docs/API_REFERENCE.md` lines 271-275). -/
def resolveTargets (p : QueryPayload) (accessible : List String) :
    List String :=
  match p.collection with
  | some c => [c]
  | none =>
    match p.collections with
    | some cs => cs
    | none => accessible

/-- C10: a whitespace-only query is never sent; with exactly one selected
collection the payload carries the singular `collection` field; with two or
more it carries the plural `collections` field; with none it carries neither,
and the server then resolves the query to all accessible collections. -/
theorem C10_query_page_payload (q : String) (sel accessible : List String) :
    ((∀ c ∈ q.data, c.isWhitespace) → handleSubmit q sel = none)
    ∧ (jsTrim q ≠ "" →
        ∃ p, handleSubmit q sel = some p ∧ p.query = q
          ∧ (sel.length = 1 → p.collection = sel.head? ∧ p.collections = none)
          ∧ (1 < sel.length → p.collection = none ∧ p.collections = some sel)
          ∧ (sel = [] → p.collection = none ∧ p.collections = none
              ∧ resolveTargets p accessible = accessible)) := by
  constructor
  · intro hws
    have hdrop : q.data.dropWhile Char.isWhitespace = [] :=
      List.dropWhile_eq_nil_iff.mpr fun c hc => hws c hc
    have htrim : jsTrim q = "" := by
      simp [jsTrim, hdrop]
    simp [handleSubmit, htrim]
  · intro htrim
    refine ⟨buildQueryPayload q sel, by simp [handleSubmit, htrim], rfl, ?_, ?_, ?_⟩
    · intro hone
      constructor
      · simp [buildQueryPayload, hone]
      · simp [buildQueryPayload, hone]
    · intro hmany
      constructor
      · simp only [buildQueryPayload]
        rw [if_neg (by omega)]
      · simp [buildQueryPayload, hmany]
    · intro hnone
      subst hnone
      refine ⟨by simp [buildQueryPayload], by simp [buildQueryPayload], ?_⟩
      simp [buildQueryPayload, resolveTargets]

/-- Closed instance of `C10_query_page_payload`: the whitespace-only query
"  " is never sent; the query "what is python" with one, two, and zero
selected collections produces the singular field, the plural field, and
neither field respectively. -/
theorem C10_query_page_payload_witness :
    handleSubmit "  " ["docs"] = none
    ∧ (∃ p, handleSubmit "what is python" ["docs"] = some p
        ∧ p.collection = some "docs" ∧ p.collections = none)
    ∧ (∃ p, handleSubmit "what is python" ["docs", "notes"] = some p
        ∧ p.collection = none ∧ p.collections = some ["docs", "notes"])
    ∧ (∃ p, handleSubmit "what is python" [] = some p
        ∧ p.collection = none ∧ p.collections = none
        ∧ resolveTargets p ["docs", "notes", "wiki"] = ["docs", "notes", "wiki"]) := by
  refine ⟨(C10_query_page_payload "  " ["docs"] []).1 (by decide), ?_, ?_, ?_⟩
  · obtain ⟨p, h1, _, h3, _, _⟩ :=
      (C10_query_page_payload "what is python" ["docs"] []).2 (by decide)
    exact ⟨p, h1, (h3 rfl).1, (h3 rfl).2⟩
  · obtain ⟨p, h1, _, _, h4, _⟩ :=
      (C10_query_page_payload "what is python" ["docs", "notes"] []).2 (by decide)
    exact ⟨p, h1, (h4 (by decide)).1, (h4 (by decide)).2⟩
  · obtain ⟨p, h1, _, _, _, h5⟩ :=
      (C10_query_page_payload "what is python" []
        ["docs", "notes", "wiki"]).2 (by decide)
    exact ⟨p, h1, (h5 rfl).1, (h5 rfl).2.1, (h5 rfl).2.2⟩

/-! ## Query request validation

Modelled from the spec: the query endpoint validation lives in the absent
backend; `docs/API_REFERENCE.md` gives the limits (query 1-1000 chars,
`n_results` max 20, error 400 for an empty query) and the spec (§4.5)
requires rejection with `ValidationError` before any embedding call.
-/

/-- External effects the query pipeline can perform. -/
inductive Effect
  | embedCall (text : String)
  | vectorQuery (collection : String)
deriving DecidableEq

def MAX_QUERY_LENGTH : Nat := 1000

def MAX_N_RESULTS : Nat := 20

/-- Modelled from the spec: validation of a query request, returning the
first applicable `ValidationError`. -/
def validateQueryRequest (q : String) (n : Nat) : Option KMError :=
  if q.length = 0 then some (.validationError "validation.empty_query")
  else if MAX_QUERY_LENGTH < q.length then
    some (.validationError "validation.query_too_long")
  else if MAX_N_RESULTS < n then
    some (.validationError "validation.n_results_too_large")
  else none

/-- Modelled from the spec: the query pipeline validates first and only then
embeds the query (exactly once) and queries each resolved collection.  The
first component is the trace of external effects performed. -/
def runQuery (q : String) (n : Nat) (collections : List String) :
    List Effect × Except KMError Unit :=
  match validateQueryRequest q n with
  | some e => ([], .error e)
  | none => (Effect.embedCall q :: collections.map Effect.vectorQuery, .ok ())

/-- C6: an empty or over-long query, or an `n_results` above the hard ceiling
of 20, is rejected with a `ValidationError` and the pipeline performs no
embedding call and no vector-store call at all; a request passing validation
embeds the query exactly once. -/
theorem C6_query_validation (q : String) (n : Nat) (cols : List String) :
    (q.length = 0 ∨ MAX_QUERY_LENGTH < q.length ∨ MAX_N_RESULTS < n →
      (runQuery q n cols).1 = []
        ∧ ∃ code, (runQuery q n cols).2 = .error (.validationError code))
    ∧ (validateQueryRequest q n = none →
        ((runQuery q n cols).1.countP fun e =>
          match e with | .embedCall _ => true | _ => false) = 1
        ∧ (runQuery q n cols).2 = .ok ()) := by
  constructor
  · intro hbad
    unfold runQuery validateQueryRequest
    rcases hbad with h | h | h
    · simp [h]
    · have h0 : ¬ q.length = 0 := by
        unfold MAX_QUERY_LENGTH at h; omega
      simp [h0, h]
    · by_cases h0 : q.length = 0
      · simp [h0]
      · by_cases h1 : MAX_QUERY_LENGTH < q.length
        · simp [h0, h1]
        · simp [h0, h1, h]
  · intro hok
    unfold runQuery
    rw [hok]
    refine ⟨?_, rfl⟩
    simp only [List.countP_cons]
    rw [List.countP_eq_zero.mpr]
    · rfl
    · intro e he
      obtain ⟨c, _, rfl⟩ := List.mem_map.mp he
      simp

/-- Closed instance of `C6_query_validation`: the empty query and
`n_results = 21` are both rejected with no effects; a valid request embeds
once. -/
theorem C6_query_validation_witness :
    ((runQuery "" 5 ["docs"]).1 = []
      ∧ ∃ code, (runQuery "" 5 ["docs"]).2 = .error (.validationError code))
    ∧ ((runQuery "what is python" 21 ["docs"]).1 = []
      ∧ ∃ code, (runQuery "what is python" 21 ["docs"]).2 =
          .error (.validationError code))
    ∧ ((runQuery "what is python" 5 ["docs"]).1.countP fun e =>
        match e with | .embedCall _ => true | _ => false) = 1 :=
  ⟨(C6_query_validation "" 5 ["docs"]).1 (Or.inl (by decide)),
   (C6_query_validation "what is python" 21 ["docs"]).1 (Or.inr (Or.inr (by decide))),
   ((C6_query_validation "what is python" 5 ["docs"]).2 (by decide)).1⟩

/-! ## Streaming query

Modelled from the spec: `stream_query_results` lives in the absent backend;
`docs/MCP_INTEGRATION.md` (lines 416-448) and `docs/API_REFERENCE.md`
(lines 323-348) list the SSE event types (`metadata`, `result`,
`collection_complete`, `collection_error`, `done`, `error`) and the spec
(§4.5) fixes their order: one `metadata`, then per collection a burst of
`result` events and one `collection_complete`, or one `collection_error` on
failure without aborting the stream, then one final `done` with the total
result count.
-/

inductive StreamEvent
  | metadata (collections : List String)
  | result (collection : String) (document : String) (rank : Nat)
  | collectionComplete (collection : String) (numResults : Nat)
  | collectionError (collection : String) (message : String)
  | done (totalResults : Nat)
  | fatalError (code : String)
deriving DecidableEq

/-- The events one collection contributes: its results (ranked within its own
batch, starting at 1) then `collection_complete`, or a single
`collection_error` when its query failed. -/
def collectionEvents (name : String) (r : Except String (List String)) :
    List StreamEvent :=
  match r with
  | .ok docs =>
      (docs.enum.map fun p => .result name p.2 (p.1 + 1))
        ++ [.collectionComplete name docs.length]
  | .error e => [.collectionError name e]

/-- Total number of result documents across the successful collections. -/
def totalResults (cols : List (String × Except String (List String))) : Nat :=
  (cols.map fun p =>
    match p.2 with
    | .ok docs => docs.length
    | .error _ => 0).sum

/-- Modelled from the spec: the full event stream of a streaming query over
the resolved collections, given each collection's query outcome. -/
def stream_query_results
    (cols : List (String × Except String (List String))) : List StreamEvent :=
  .metadata (cols.map fun p => p.1)
    :: (cols.flatMap fun p => collectionEvents p.1 p.2)
    ++ [.done (totalResults cols)]

def isDoneEvent : StreamEvent → Bool
  | .done _ => true
  | _ => false

def isResultEvent : StreamEvent → Bool
  | .result _ _ _ => true
  | _ => false

theorem countP_done_collectionEvents (name : String)
    (r : Except String (List String)) :
    (collectionEvents name r).countP isDoneEvent = 0 := by
  cases r with
  | ok docs =>
      simp only [collectionEvents, List.countP_append]
      rw [List.countP_eq_zero.mpr, List.countP_eq_zero.mpr]
      · intro e he
        simp only [List.mem_singleton] at he
        subst he
        simp [isDoneEvent]
      · intro e he
        obtain ⟨p, _, rfl⟩ := List.mem_map.mp he
        simp [isDoneEvent]
  | error e =>
      simp [collectionEvents, List.countP_cons, isDoneEvent]

theorem countP_result_collectionEvents (name : String)
    (r : Except String (List String)) :
    (collectionEvents name r).countP isResultEvent =
      match r with
      | .ok docs => docs.length
      | .error _ => 0 := by
  cases r with
  | ok docs =>
      simp only [collectionEvents, List.countP_append]
      rw [List.countP_eq_length.mpr, List.countP_eq_zero.mpr]
      · simp
      · intro e he
        simp only [List.mem_singleton] at he
        subst he
        simp [isResultEvent]
      · intro e he
        obtain ⟨p, _, rfl⟩ := List.mem_map.mp he
        simp [isResultEvent]
  | error e =>
      simp [collectionEvents, List.countP_cons, isResultEvent]

theorem countP_flatMap_collectionEvents
    (cols : List (String × Except String (List String))) (p : StreamEvent → Bool)
    (f : String → Except String (List String) → Nat)
    (h : ∀ name r, (collectionEvents name r).countP p = f name r) :
    ((cols.flatMap fun q => collectionEvents q.1 q.2).countP p) =
      (cols.map fun q => f q.1 q.2).sum := by
  induction cols with
  | nil => simp
  | cons q qs ih =>
      simp only [List.flatMap_cons, List.countP_append, List.map_cons,
        List.sum_cons, h q.1 q.2, ih]

/-- C3: in a streaming query, a failing collection contributes exactly one
`collection_error` event and every successful collection still contributes
its `collection_complete` event (the stream never aborts early); the stream
ends with exactly one `done` event, in final position, whose count equals the
number of `result` events emitted. -/
theorem C3_streaming_failure_isolation
    (cols : List (String × Except String (List String))) :
    (∀ q ∈ cols, ∀ e, q.2 = .error e →
      StreamEvent.collectionError q.1 e ∈ stream_query_results cols)
    ∧ (∀ q ∈ cols, ∀ docs, q.2 = .ok docs →
      StreamEvent.collectionComplete q.1 docs.length ∈ stream_query_results cols)
    ∧ (stream_query_results cols).countP isDoneEvent = 1
    ∧ (stream_query_results cols).getLast? =
        some (.done (totalResults cols))
    ∧ (stream_query_results cols).countP isResultEvent = totalResults cols := by
  refine ⟨?_, ?_, ?_, ?_, ?_⟩
  · intro q hq e he
    have hx : StreamEvent.collectionError q.1 e ∈
        cols.flatMap fun p => collectionEvents p.1 p.2 := by
      refine List.mem_flatMap.mpr ⟨q, hq, ?_⟩
      rw [he]
      simp [collectionEvents]
    simp [stream_query_results, hx]
  · intro q hq docs hdocs
    have hx : StreamEvent.collectionComplete q.1 docs.length ∈
        cols.flatMap fun p => collectionEvents p.1 p.2 := by
      refine List.mem_flatMap.mpr ⟨q, hq, ?_⟩
      rw [hdocs]
      simp [collectionEvents]
    simp [stream_query_results, hx]
  · simp only [stream_query_results, List.countP_cons, List.countP_append]
    rw [countP_flatMap_collectionEvents cols isDoneEvent (fun _ _ => 0)
      (fun name r => countP_done_collectionEvents name r)]
    simp [isDoneEvent]
  · simp only [stream_query_results, ← List.cons_append]
    exact List.getLast?_concat _
  · simp only [stream_query_results, List.countP_cons, List.countP_append]
    rw [countP_flatMap_collectionEvents cols isResultEvent
      (fun name r => match r with | .ok docs => docs.length | .error _ => 0)
      (fun name r => countP_result_collectionEvents name r)]
    simp [isResultEvent, totalResults]

/-- Closed instance of `C3_streaming_failure_isolation`: collection "docs"
succeeds with two results and collection "broken" fails, yet the stream
carries the error event, the completion event for "docs", and one final
`done` with total 2. -/
theorem C3_streaming_failure_isolation_witness :
    StreamEvent.collectionError "broken" "Collection not found" ∈
      stream_query_results
        [("docs", .ok ["python is...", "python can..."]),
         ("broken", .error "Collection not found")]
    ∧ StreamEvent.collectionComplete "docs" 2 ∈
      stream_query_results
        [("docs", .ok ["python is...", "python can..."]),
         ("broken", .error "Collection not found")]
    ∧ (stream_query_results
        [("docs", .ok ["python is...", "python can..."]),
         ("broken", .error "Collection not found")]).getLast? =
      some (.done 2) := by
  have h := C3_streaming_failure_isolation
    [("docs", .ok ["python is...", "python can..."]),
     ("broken", .error "Collection not found")]
  refine ⟨h.1 ("broken", .error "Collection not found") (by simp)
      "Collection not found" rfl,
    h.2.1 ("docs", .ok ["python is...", "python can..."]) (by simp)
      ["python is...", "python can..."] rfl, ?_⟩
  have h4 := h.2.2.2.1
  rwa [show totalResults
      [("docs", .ok ["python is...", "python can..."]),
       ("broken", .error "Collection not found")] = 2 from rfl] at h4

/-! ## Ingestion pipeline

Modelled from the spec: the ingestion orchestration lives in the absent
backend.  The spec (§4.4) fixes the contract: per-chunk embedding outcomes
are collected without aborting siblings; if zero chunks succeed the request
fails with `NoValidContentError`; otherwise it succeeds with
`indexed_chunks` equal to the number of surviving chunks and the failed
chunks listed under `skipped` (`validation.no_valid_files` in
`docs/MCP_INTEGRATION.md` lines 472-478; the upload page surfaces
`indexed_chunks` from the response, `upload/page.tsx` lines 36-44).
-/

structure SkippedChunk where
  source : String
  chunk_index : Nat
  reason : String
deriving DecidableEq

structure IngestResult where
  indexed_chunks : Nat
  skipped : List SkippedChunk
deriving DecidableEq

/-- One record per chunk across all submitted files: source identifier,
chunk index within its file, and that chunk's embedding outcome. -/
def chunkOutcomes
    (files : List (String × List (Except String (List ℚ)))) :
    List (String × Nat × Except String (List ℚ)) :=
  files.flatMap fun f => f.2.enum.map fun p => (f.1, p.1, p.2)

def isOkOutcome (o : String × Nat × Except String (List ℚ)) : Bool :=
  match o.2.2 with
  | .ok _ => true
  | .error _ => false

/-- The skipped-chunk report: one entry per failed chunk, carrying its
source, chunk index and failure reason. -/
def skippedOf (files : List (String × List (Except String (List ℚ)))) :
    List SkippedChunk :=
  (chunkOutcomes files).filterMap fun o =>
    match o.2.2 with
    | .error r => some ⟨o.1, o.2.1, r⟩
    | .ok _ => none

/-- Modelled from the spec: `ingest` fails with `NoValidContentError` when no
chunk of any file survived embedding, and otherwise reports the surviving
count and the skipped chunks. -/
def ingest (files : List (String × List (Except String (List ℚ)))) :
    Except KMError IngestResult :=
  if (chunkOutcomes files).countP isOkOutcome = 0 then
    .error .noValidContentError
  else
    .ok ⟨(chunkOutcomes files).countP isOkOutcome, skippedOf files⟩

/-- C4: ingestion fails with `NoValidContentError` exactly when zero chunks
succeed across all files; when at least one chunk succeeds the request
succeeds (partial failure is never escalated) with `indexed_chunks` equal to
the number of surviving chunks and `skipped` listing exactly the failed
chunks. -/
theorem C4_ingest_outcome_report
    (files : List (String × List (Except String (List ℚ)))) :
    ((chunkOutcomes files).countP isOkOutcome = 0 ↔
      ingest files = .error .noValidContentError)
    ∧ (0 < (chunkOutcomes files).countP isOkOutcome →
        ingest files =
          .ok ⟨(chunkOutcomes files).countP isOkOutcome, skippedOf files⟩)
    ∧ (∀ s ∈ skippedOf files,
        (s.source, s.chunk_index, Except.error s.reason) ∈ chunkOutcomes files)
    ∧ (∀ o ∈ chunkOutcomes files, isOkOutcome o = false →
        ∃ s ∈ skippedOf files, s.source = o.1 ∧ s.chunk_index = o.2.1) := by
  refine ⟨?_, ?_, ?_, ?_⟩
  · constructor
    · intro h
      simp [ingest, h]
    · intro h
      by_contra hne
      simp [ingest, hne] at h
  · intro h
    have hne : ¬ (chunkOutcomes files).countP isOkOutcome = 0 := by omega
    simp [ingest, hne]
  · intro s hs
    obtain ⟨o, ho, hso⟩ := List.mem_filterMap.mp hs
    cases hoe : o.2.2 with
    | ok v => rw [hoe] at hso; simp at hso
    | error r =>
        rw [hoe] at hso
        simp only [Option.some.injEq] at hso
        subst hso
        simp only
        have : o = (o.1, o.2.1, Except.error r) := by
          rw [← hoe]
        rw [← this]
        exact ho
  · intro o ho hfail
    cases hoe : o.2.2 with
    | ok v => simp [isOkOutcome, hoe] at hfail
    | error r =>
        refine ⟨⟨o.1, o.2.1, r⟩, ?_, rfl, rfl⟩
        refine List.mem_filterMap.mpr ⟨o, ho, ?_⟩
        rw [hoe]

/-- Closed instance of `C4_ingest_outcome_report`: a single file whose two
chunks both fail embedding yields `NoValidContentError`; two files where only
the second file's chunks fail yields `indexed_chunks = 2` with the two failed
chunks of "bad.txt" listed under `skipped`. -/
theorem C4_ingest_outcome_report_witness :
    ingest [("bad.txt", [.error "embedding failed", .error "embedding failed"])]
      = .error .noValidContentError
    ∧ ingest
        [("good.txt", [.ok [1], .ok [2]]),
         ("bad.txt", [.error "embedding failed", .error "embedding failed"])]
      = .ok ⟨2, [⟨"bad.txt", 0, "embedding failed"⟩,
                 ⟨"bad.txt", 1, "embedding failed"⟩]⟩ := by
  constructor
  · exact (C4_ingest_outcome_report
      [("bad.txt", [.error "embedding failed", .error "embedding failed"])]).1.mp
      (by decide)
  · have h := (C4_ingest_outcome_report
      [("good.txt", [.ok [1], .ok [2]]),
       ("bad.txt", [.error "embedding failed", .error "embedding failed"])]).2.1
      (by decide)
    rw [h]
    rfl

end KnowledgeManager
